import Mathlib

/-!
Verification of the minigrep library (`src/lib.rs`).

Strings of the Rust code are modelled as their character sequences
(`List Char`); Rust `&str` methods used by the code are embedded as
executable functions on `List Char` below.  The configuration builder
`Config::build` is embedded over Lean `String`s, with the process
environment abstracted to one boolean (`env::var("IGNORE_CASE").is_ok()`,
i.e. the variable is present with a readable value).
-/

namespace Minigrep

/-- Model of Rust `str::contains` (`line.contains(query)`): does `q` occur
as a contiguous substring of `s`?  On valid UTF-8, Rust byte-level substring
search coincides with character-sequence infix search. -/
def strContains : List Char → List Char → Bool
  | [], q => q.isEmpty
  | c :: t, q => q.isPrefixOf (c :: t) || strContains t q

/-- Model of Rust `str::split_inclusive('\n')`: chunks of the input, each
ending with the separator except possibly the last; the empty string gives
no chunks. -/
def splitInclNl : List Char → List (List Char)
  | [] => []
  | c :: rest =>
    if c = '\n' then [c] :: splitInclNl rest
    else
      match splitInclNl rest with
      | [] => [[c]]
      | p :: ps => (c :: p) :: ps

/-- Model of the per-chunk trimming done by Rust `str::lines`: strip one
trailing `'\n'`, and after it one trailing `'\r'` (so `"\r\n"` and `"\n"`
terminators are removed; a lone trailing `'\r'` is kept). -/
def stripLineEnd (l : List Char) : List Char :=
  match l.reverse with
  | a :: r =>
    if a = '\n' then
      match r with
      | b :: r2 => if b = '\r' then r2.reverse else r.reverse
      | [] => []
    else l
  | [] => l

/-- Model of Rust `str::lines()`: split inclusively on `'\n'` and strip the
terminator (`"\n"` or `"\r\n"`) from each chunk. -/
def rustLines (s : List Char) : List (List Char) :=
  (splitInclNl s).map stripLineEnd

/-- Unicode `Cased` property as consulted by Rust `str::to_lowercase()`'s
final-sigma rule, restricted to the character fragment modelled here (ASCII
letters and the Greek sigmas).  Every theorem below that quantifies over
strings holds for every extension of this predicate; concrete computations
in theorem statements use only characters on which it agrees with Unicode. -/
def cased (c : Char) : Bool :=
  c.isAlpha || c = 'Σ' || c = 'σ' || c = 'ς'

/-- Unicode `Case_Ignorable` property, restricted to its ASCII members
(apostrophe, full stop, colon, circumflex, grave accent); same modelling
note as for `cased`. -/
def caseIgnorable (c : Char) : Bool :=
  c = '\'' || c = '.' || c = ':' || c = '^' || c = '`'

/-- Model of `case_ignorable_then_cased` from Rust's `str::to_lowercase`
implementation: skip `Case_Ignorable` characters, then test whether the
first remaining character is `Cased`. -/
def caseIgnorableThenCased (l : List Char) : Bool :=
  match l.dropWhile caseIgnorable with
  | [] => false
  | c :: _ => cased c

/-- The `Final_Sigma` context condition of `str::to_lowercase` at a capital
sigma: preceded (reading backwards over case-ignorable characters) by a
cased character, and not followed (skipping case-ignorable characters) by a
cased character.  `revBefore` is the reversed prefix before the sigma,
`after` the suffix following it. -/
def isFinalSigma (revBefore after : List Char) : Bool :=
  caseIgnorableThenCased revBefore && !(caseIgnorableThenCased after)

/-- The context-free per-character lowercase conversion (Rust
`char::to_lowercase`, a sequence of characters), abstracted to its ASCII
fragment: identity off ASCII, single-character images.  No theorem below
depends on the entries of this table beyond the ASCII range. -/
def lowerChar (c : Char) : List Char :=
  [c.toLower]

/-- Model of Rust `str::to_lowercase()`: each capital sigma `'Σ'` lowers to
final sigma `'ς'` when the `Final_Sigma` context condition holds and to
`'σ'` otherwise; every other character lowers by the context-free
per-character conversion.  `revBefore` accumulates the reversed prefix
already processed, as Rust's implementation reads the prefix backwards. -/
def toLowercaseAux : List Char → List Char → List Char
  | _, [] => []
  | revBefore, c :: after =>
    (if c = 'Σ' then [if isFinalSigma revBefore after then 'ς' else 'σ']
     else lowerChar c) ++ toLowercaseAux (c :: revBefore) after

/-- Model of Rust `str::to_lowercase()` (see `toLowercaseAux`). -/
def toLowercase (s : List Char) : List Char :=
  toLowercaseAux [] s

/-- Embedding of `search` from `src/lib.rs`:
`contents.lines().filter(|line| line.contains(query)).collect()`. -/
def search (query contents : List Char) : List (List Char) :=
  (rustLines contents).filter (fun line => strContains line query)

/-- Embedding of `search_case_insensitive` from `src/lib.rs`: the query is
lowercased once, each line is lowercased for the containment test, and the
original line is returned. -/
def search_case_insensitive (query contents : List Char) : List (List Char) :=
  let q := toLowercase query
  (rustLines contents).filter (fun line => strContains (toLowercase line) q)

/-- Plain separator split on `'\n'` (`n` separators give `n + 1` parts);
used to state what `lines` does to a terminator-ended input. -/
def splitOnNl : List Char → List (List Char)
  | [] => [[]]
  | c :: rest =>
    if c = '\n' then [] :: splitOnNl rest
    else
      match splitOnNl rest with
      | [] => [[c]]
      | p :: ps => (c :: p) :: ps

/-- Strip one trailing `'\r'` (the trimming `str::lines` applies to a part
that was terminated by `"\n"`). -/
def stripCr (l : List Char) : List Char :=
  match l.reverse with
  | a :: r => if a = '\r' then r.reverse else l
  | [] => l

theorem strContains_iff (s q : List Char) : strContains s q = true ↔ q <:+: s := by
  induction s with
  | nil =>
    simp [strContains, List.isEmpty_iff, List.infix_nil]
  | cons c t ih =>
    simp only [strContains, Bool.or_eq_true]
    rw [List.isPrefixOf_iff_prefix, ih, List.infix_cons_iff]

theorem strContains_nil (s : List Char) : strContains s [] = true := by
  cases s with
  | nil => rfl
  | cons c t => simp [strContains]

theorem strContains_eq_decide (s q : List Char) :
    strContains s q = decide (q <:+: s) := by
  rcases h : strContains s q with _ | _
  · have : ¬ q <:+: s := fun hq => by simp [(strContains_iff s q).mpr hq] at h
    simp [this]
  · simp [(strContains_iff s q).mp h]

theorem splitOnNl_ne_nil (s : List Char) : splitOnNl s ≠ [] := by
  cases s with
  | nil => simp [splitOnNl]
  | cons c rest =>
    simp only [splitOnNl]
    split
    · simp
    · split <;> simp

theorem splitInclNl_append_nl (s : List Char) :
    splitInclNl (s ++ ['\n']) = (splitOnNl s).map (fun p => p ++ ['\n']) := by
  induction s with
  | nil => simp [splitInclNl, splitOnNl]
  | cons c rest ih =>
    by_cases hc : c = '\n'
    · subst hc
      simp [splitInclNl, splitOnNl, ih]
    · rcases hr : splitOnNl rest with _ | ⟨p, ps⟩
      · exact absurd hr (splitOnNl_ne_nil rest)
      · simp only [List.cons_append, splitInclNl, if_neg hc, List.append_eq, ih, hr,
          splitOnNl, List.map_cons]

theorem stripLineEnd_append_nl (p : List Char) :
    stripLineEnd (p ++ ['\n']) = stripCr p := by
  have hrev : (p ++ ['\n']).reverse = '\n' :: p.reverse := by simp
  rcases hp : p.reverse with _ | ⟨b, r2⟩
  · have hpnil : p = [] := by simpa using congrArg List.reverse hp
    subst hpnil
    simp [stripLineEnd, stripCr]
  · by_cases hb : b = '\r'
    · subst hb
      simp [stripLineEnd, stripCr, hrev, hp]
    · have hback : (b :: r2).reverse = p := by
        rw [← hp, List.reverse_reverse]
      simp [stripLineEnd, stripCr, hrev, hp, hb, hback]

theorem splitOnNl_length (s : List Char) :
    (splitOnNl s).length = s.count '\n' + 1 := by
  induction s with
  | nil => simp [splitOnNl]
  | cons c rest ih =>
    by_cases hc : c = '\n'
    · subst hc
      simp [splitOnNl, ih, List.count_cons]
    · rcases hr : splitOnNl rest with _ | ⟨p, ps⟩
      · exact absurd hr (splitOnNl_ne_nil rest)
      · have := ih
        rw [hr] at this
        simp only [splitOnNl, if_neg hc, hr, List.length_cons] at this ⊢
        rw [List.count_cons]
        simp [hc, this]

theorem rustLines_append_nl (s : List Char) :
    rustLines (s ++ ['\n']) = (splitOnNl s).map stripCr := by
  rw [rustLines, splitInclNl_append_nl, List.map_map]
  exact List.map_congr_left fun p _ => stripLineEnd_append_nl p

theorem search_empty_query (c : List Char) : search [] c = rustLines c := by
  rw [search]
  exact List.filter_eq_self.mpr fun l _ => strContains_nil l

theorem search_ci_empty_query (c : List Char) :
    search_case_insensitive [] c = rustLines c := by
  rw [search_case_insensitive]
  exact List.filter_eq_self.mpr fun l _ => strContains_nil (toLowercase l)

/-- C1: `search(query, contents)` is exactly the subsequence of the lines of
`contents` (in original order, terminators stripped by `lines`) whose text
contains `query` as a contiguous case-sensitive substring. -/
theorem search_eq_infix_filter (query contents : List Char) :
    search query contents
      = (rustLines contents).filter (fun line => decide (query <:+: line)) ∧
    List.Sublist (search query contents) (rustLines contents) := by
  constructor
  · rw [search]
    exact List.filter_congr fun line _ => strContains_eq_decide line query
  · exact List.filter_sublist (rustLines contents)

/-- C2: `search_case_insensitive(query, contents)` is exactly the subsequence
of the lines of `contents`, in original order, whose lowercased form contains
the lowercased query as a contiguous substring; the returned lines are the
original (non-lowercased) lines, being a sublist of `lines(contents)`. -/
theorem search_ci_eq_lower_infix_filter (query contents : List Char) :
    search_case_insensitive query contents
      = (rustLines contents).filter
          (fun line => decide (toLowercase query <:+: toLowercase line)) ∧
    List.Sublist (search_case_insensitive query contents) (rustLines contents) := by
  constructor
  · rw [search_case_insensitive]
    exact List.filter_congr fun line _ =>
      strContains_eq_decide (toLowercase line) (toLowercase query)
  · exact List.filter_sublist (rustLines contents)

/-- C7: with the empty query, `search` and `search_case_insensitive` return
all lines of `contents`; empty contents yield no lines; and a trailing line
terminator does not contribute an extra empty line: the lines of
`contents ++ "\n"` are exactly the separator-split parts of `contents`
(each with a trailing `'\r'` stripped), of which there are exactly
`count '\n' contents + 1` — no further empty line appears after the final
terminator. -/
theorem empty_query_returns_all_lines (c : List Char) :
    search [] c = rustLines c ∧
    search_case_insensitive [] c = rustLines c ∧
    rustLines [] = [] ∧
    rustLines (c ++ ['\n']) = (splitOnNl c).map stripCr ∧
    (splitOnNl c).length = c.count '\n' + 1 :=
  ⟨search_empty_query c, search_ci_empty_query c, rfl,
    rustLines_append_nl c, splitOnNl_length c⟩

theorem toLowercaseAux_sigma_free (rb rb2 l : List Char) (h : 'Σ' ∉ l) :
    toLowercaseAux rb l = toLowercaseAux rb2 l := by
  induction l generalizing rb rb2 with
  | nil => rfl
  | cons c t ih =>
    have hc : c ≠ 'Σ' := fun hh => h (hh ▸ List.mem_cons_self c t)
    have ht : 'Σ' ∉ t := fun hh => h (List.mem_cons_of_mem c hh)
    simp only [toLowercaseAux, if_neg hc]
    exact congrArg (lowerChar c ++ ·) (ih (c :: rb) (c :: rb2) ht)

theorem toLowercaseAux_append_right (rb l1 l2 : List Char) :
    ∃ X, toLowercaseAux rb (l1 ++ l2)
      = X ++ toLowercaseAux (l1.reverse ++ rb) l2 := by
  induction l1 generalizing rb with
  | nil => exact ⟨[], rfl⟩
  | cons c t ih =>
    obtain ⟨X, hX⟩ := ih (c :: rb)
    refine ⟨(if c = 'Σ' then [if isFinalSigma rb (t ++ l2) then 'ς' else 'σ']
      else lowerChar c) ++ X, ?_⟩
    simp only [List.cons_append, toLowercaseAux, List.append_eq, hX,
      List.reverse_cons, List.append_assoc, List.singleton_append,
      List.nil_append]

theorem toLowercaseAux_append_sigma_free (rb q l2 : List Char) (hq : 'Σ' ∉ q) :
    toLowercaseAux rb (q ++ l2)
      = toLowercaseAux rb q ++ toLowercaseAux (q.reverse ++ rb) l2 := by
  induction q generalizing rb with
  | nil => simp [toLowercaseAux]
  | cons c t ih =>
    have hc : c ≠ 'Σ' := fun hh => hq (hh ▸ List.mem_cons_self c t)
    have ht : 'Σ' ∉ t := fun hh => hq (List.mem_cons_of_mem c hh)
    simp only [List.cons_append, toLowercaseAux, if_neg hc, List.append_eq,
      ih (c :: rb) ht, List.reverse_cons, List.append_assoc,
      List.singleton_append, List.nil_append]

theorem toLowercase_infix_of_sigma_free (q l : List Char) (hq : 'Σ' ∉ q)
    (h : q <:+: l) : toLowercase q <:+: toLowercase l := by
  obtain ⟨s, t, rfl⟩ := h
  rw [List.append_assoc, toLowercase, toLowercase]
  obtain ⟨X, hX⟩ := toLowercaseAux_append_right [] s (q ++ t)
  rw [hX, List.append_nil, toLowercaseAux_append_sigma_free s.reverse q t hq,
    toLowercaseAux_sigma_free s.reverse [] q hq]
  exact ⟨X, toLowercaseAux (q.reverse ++ s.reverse) t, by rw [List.append_assoc]⟩

/-- C9 counterexample: with query `"AΣ"` and contents `"AΣB"` the
case-sensitive search returns the line, but the case-insensitive one does
not: the final-sigma rule lowercases the standalone query to `"aς"` while
inside the line the sigma is followed by a cased letter and lowercases to
`'σ'`, so `"aσb"` does not contain `"aς"`; the claimed sublist property
fails. -/
theorem search_sublist_ci_cex :
    search ['A', 'Σ'] ['A', 'Σ', 'B'] = [['A', 'Σ', 'B']] ∧
    search_case_insensitive ['A', 'Σ'] ['A', 'Σ', 'B'] = [] ∧
    ¬ List.Sublist (search ['A', 'Σ'] ['A', 'Σ', 'B'])
        (search_case_insensitive ['A', 'Σ'] ['A', 'Σ', 'B']) := by
  have h1 : search ['A', 'Σ'] ['A', 'Σ', 'B'] = [['A', 'Σ', 'B']] := rfl
  have h2 : search_case_insensitive ['A', 'Σ'] ['A', 'Σ', 'B'] = [] := rfl
  refine ⟨h1, h2, fun h => ?_⟩
  rw [h1, h2] at h
  simp at h

/-- C9 (amended): for every query in which the capital sigma `'Σ'` does not
occur, every line matched case-sensitively is also matched
case-insensitively, in the same relative order: `search(query, contents)`
is a sublist of `search_case_insensitive(query, contents)`.  (A sigma in
the query can break this, since its lowercase form depends on its
context.) -/
theorem search_sublist_ci_of_sigma_free_query (query contents : List Char)
    (hq : 'Σ' ∉ query) :
    List.Sublist (search query contents)
      (search_case_insensitive query contents) := by
  rw [search, search_case_insensitive]
  refine List.monotone_filter_right (rustLines contents) fun line h => ?_
  have hinf : query <:+: line := (strContains_iff line query).mp h
  exact (strContains_iff (toLowercase line) (toLowercase query)).mpr
    (toLowercase_infix_of_sigma_free query line hq hinf)

theorem search_sublist_ci_of_sigma_free_query_witness :
    List.Sublist (search ['u'] ['R', 'u', 's', 't'])
      (search_case_insensitive ['u'] ['R', 'u', 's', 't']) :=
  search_sublist_ci_of_sigma_free_query ['u'] ['R', 'u', 's', 't'] (by decide)

/-- The two configuration errors.  The Rust code returns the static strings
"Didn't get a query string" and "Didn't get a file path"; the spec names
them MissingQuery and MissingFilePath. -/
inductive ConfigError where
  | MissingQuery
  | MissingFilePath
  deriving DecidableEq, Repr

/-- The `Config` struct of `src/lib.rs`. -/
structure Config where
  query : String
  file_path : String
  ignore_case : Bool
  deriving DecidableEq, Repr

/-- The retention predicate of the argument filter: every argument other
than the literal `-i` is kept. -/
def notFlag (a : String) : Bool := a != "-i"

/-- Model of the lazy `args.filter(...)` iterator of `Config::build` driven
for `n` calls of `next()`: `collect n args` returns the first `n` retained
(non-`"-i"`) arguments together with the flag the side-effecting closure
accumulated, namely whether any `"-i"` was consumed while producing them.
Arguments past the `n`-th retained element are never examined, exactly as
with the Rust iterator. -/
def collect : Nat → List String → List String × Bool
  | _, [] => ([], false)
  | 0, _ => ([], false)
  | n + 1, a :: rest =>
    if a = "-i" then
      ((collect (n + 1) rest).1, true)
    else
      (a :: (collect n rest).1, (collect n rest).2)

/-- Embedding of `Config::build` from `src/lib.rs`.  The iterator is pulled
three times (program-name slot, query, file path); `env_present` abstracts
`env::var("IGNORE_CASE").is_ok()`, which is consulted only on the success
path and or-ed with the flag accumulated so far. -/
def Config.build (args : List String) (env_present : Bool) : Except ConfigError Config :=
  match collect 3 args with
  | ([_, q, f], b) =>
    .ok { query := q, file_path := f, ignore_case := b || env_present }
  | ([_, _], _) => .error .MissingFilePath
  | _ => .error .MissingQuery

/-- The prefix of the argument list that the lazy iterator actually
consumes when asked for `n` retained elements: everything up to and
including the `n`-th non-`"-i"` argument (or the whole list if fewer
exist). -/
def consumedPrefix : Nat → List String → List String
  | _, [] => []
  | 0, _ => []
  | n + 1, a :: rest =>
    if a = "-i" then a :: consumedPrefix (n + 1) rest
    else a :: consumedPrefix n rest

theorem collect_fst (n : Nat) (args : List String) :
    (collect n args).1 = (args.filter notFlag).take n := by
  induction args generalizing n with
  | nil => cases n <;> simp [collect]
  | cons a rest ih =>
    cases n with
    | zero => simp [collect]
    | succ m =>
      by_cases ha : a = "-i"
      · subst ha
        simp [collect, notFlag, ih]
      · simp [collect, notFlag, ha, bne_iff_ne, ih]

theorem collect_snd (n : Nat) (args : List String) :
    ((collect n args).2 = true) ↔ "-i" ∈ consumedPrefix n args := by
  induction args generalizing n with
  | nil => cases n <;> simp [collect, consumedPrefix]
  | cons a rest ih =>
    cases n with
    | zero => simp [collect, consumedPrefix]
    | succ m =>
      by_cases ha : a = "-i"
      · subst ha
        simp [collect, consumedPrefix]
      · have ha2 : ("-i" : String) ≠ a := Ne.symm ha
        simp [collect, consumedPrefix, ha, ha2, ih]

theorem collect_snd_decide (n : Nat) (args : List String) :
    (collect n args).2 = decide ("-i" ∈ consumedPrefix n args) := by
  have h := collect_snd n args
  cases hb : (collect n args).2
  · rw [hb] at h
    have hnot : ¬ "-i" ∈ consumedPrefix n args := fun hm => by
      have hft := h.mpr hm
      cases hft
    exact (decide_eq_false hnot).symm
  · rw [hb] at h
    exact (decide_eq_true (h.mp rfl)).symm

theorem build_eq_ok (args : List String) (env : Bool) (x q f : String)
    (r : List String) (h : args.filter notFlag = x :: q :: f :: r) :
    Config.build args env
      = .ok { query := q, file_path := f,
              ignore_case := decide ("-i" ∈ consumedPrefix 3 args) || env } := by
  have hc : collect 3 args = ([x, q, f], decide ("-i" ∈ consumedPrefix 3 args)) := by
    rw [← collect_snd_decide]
    have h1 : (collect 3 args).1 = [x, q, f] := by
      rw [collect_fst, h]
      rfl
    rw [← h1]
  simp [Config.build, hc]

theorem build_eq_missing_file (args : List String) (env : Bool) (x q : String)
    (h : args.filter notFlag = [x, q]) :
    Config.build args env = .error .MissingFilePath := by
  have h1 : (collect 3 args).1 = [x, q] := by
    rw [collect_fst, h]
    rfl
  have hc : collect 3 args = ([x, q], (collect 3 args).2) := by
    rw [← h1]
  rw [Config.build, hc]

theorem build_eq_missing_query (args : List String) (env : Bool)
    (h : (args.filter notFlag).drop 1 = []) :
    Config.build args env = .error .MissingQuery := by
  rcases hf : args.filter notFlag with _ | ⟨x, _ | ⟨y, r⟩⟩
  · have h1 : (collect 3 args).1 = [] := by
      rw [collect_fst, hf]
      rfl
    have hc : collect 3 args = ([], (collect 3 args).2) := by
      rw [← h1]
    rw [Config.build, hc]
  · have h1 : (collect 3 args).1 = [x] := by
      rw [collect_fst, hf]
      rfl
    have hc : collect 3 args = ([x], (collect 3 args).2) := by
      rw [← h1]
    rw [Config.build, hc]
  · rw [hf] at h
    simp at h

theorem mem_retained_of_build_ok (args : List String) (env : Bool) (c : Config)
    (h : Config.build args env = .ok c) :
    c.query ∈ args.filter notFlag ∧ c.file_path ∈ args.filter notFlag := by
  rcases hf : args.filter notFlag with _ | ⟨x, _ | ⟨q, _ | ⟨f, r⟩⟩⟩
  · rw [build_eq_missing_query args env (by rw [hf]; rfl)] at h
    cases h
  · rw [build_eq_missing_query args env (by rw [hf]; rfl)] at h
    cases h
  · rw [build_eq_missing_file args env x q hf] at h
    cases h
  · rw [build_eq_ok args env x q f r hf] at h
    cases h
    exact ⟨by simp, by simp⟩

/-- C3 counterexample: in `["prog", "q", "f", "-i"]` the flag `-i` appears
after the file-path position; the lazy iterator never consumes it, so
`Config::build` succeeds with `ignore_case = false`, although `-i` does
occur among the trailing arguments. -/
theorem build_trailing_flag_cex :
    Config.build ["prog", "q", "f", "-i"] false
      = .ok { query := "q", file_path := "f", ignore_case := false } ∧
    "-i" ∈ ["prog", "q", "f", "-i"].drop 1 := by
  constructor
  · rfl
  · simp

/-- C3 (amended): an argument `-i` sets `ignore_case` exactly when it lies in
the consumed prefix of the argument list (up to and including the third
retained argument, i.e. the file path); and flag filtering is independent of
positional indexing: the query and the file path are elements 1 and 2 of the
argument list with all `-i` occurrences removed. -/
theorem build_flag_and_positions (args : List String) (env : Bool) (c : Config)
    (h : Config.build args env = .ok c) :
    c.ignore_case = (decide ("-i" ∈ consumedPrefix 3 args) || env) ∧
    (args.filter notFlag)[1]? = some c.query ∧
    (args.filter notFlag)[2]? = some c.file_path := by
  rcases hf : args.filter notFlag with _ | ⟨x, _ | ⟨q, _ | ⟨f, r⟩⟩⟩
  · rw [build_eq_missing_query args env (by rw [hf]; rfl)] at h
    cases h
  · rw [build_eq_missing_query args env (by rw [hf]; rfl)] at h
    cases h
  · rw [build_eq_missing_file args env x q hf] at h
    cases h
  · rw [build_eq_ok args env x q f r hf] at h
    cases h
    exact ⟨rfl, by simp, by simp⟩

theorem build_flag_and_positions_witness :
    (Config.mk "a" "b" true).ignore_case
        = (decide ("-i" ∈ consumedPrefix 3 ["p", "-i", "a", "b"]) || false) ∧
    (["p", "-i", "a", "b"].filter notFlag)[1]? = some (Config.mk "a" "b" true).query ∧
    (["p", "-i", "a", "b"].filter notFlag)[2]? = some (Config.mk "a" "b" true).file_path :=
  build_flag_and_positions ["p", "-i", "a", "b"] false (Config.mk "a" "b" true) rfl

/-- C4 counterexample: with arguments `["-i", "q"]` the claim's reading
(drop the program name first, then remove `-i`) leaves the non-empty list
`["q"]`, so the claim predicts `MissingFilePath`; the code filters `-i`
before discarding the program-name slot, consumes `"q"` as that slot, and
fails with `MissingQuery`. -/
theorem build_error_order_cex :
    Config.build ["-i", "q"] false = .error .MissingQuery ∧
    (["-i", "q"].drop 1).filter notFlag ≠ [] := by
  constructor
  · rfl
  · simp [notFlag]

/-- C4 (amended): with `r` the list of arguments after removing every `-i`
and then dropping the first remaining element (the program-name slot),
`Config::build` fails with `MissingQuery` exactly when `r` is empty, fails
with `MissingFilePath` exactly when `r` has exactly one element, and
returns a `Config` otherwise. -/
theorem build_error_classification (args : List String) (env : Bool) :
    (Config.build args env = .error .MissingQuery
      ↔ (args.filter notFlag).drop 1 = []) ∧
    (Config.build args env = .error .MissingFilePath
      ↔ ((args.filter notFlag).drop 1).length = 1) ∧
    (2 ≤ ((args.filter notFlag).drop 1).length
      → ∃ c, Config.build args env = .ok c) := by
  rcases hf : args.filter notFlag with _ | ⟨x, _ | ⟨q, _ | ⟨f, r⟩⟩⟩
  · rw [build_eq_missing_query args env (by rw [hf]; rfl)]
    simp
  · rw [build_eq_missing_query args env (by rw [hf]; rfl)]
    simp
  · rw [build_eq_missing_file args env x q hf]
    simp
  · rw [build_eq_ok args env x q f r hf]
    refine ⟨by simp, by simp, fun _ => ⟨_, rfl⟩⟩

theorem build_error_classification_witness :
    ∃ c, Config.build ["p", "q", "f"] false = .ok c :=
  (build_error_classification ["p", "q", "f"] false).2.2 (by decide)

/-- C5 counterexample: with arguments `["p", "a", "b", "-i"]` and the
environment variable absent, a `-i` flag argument is present, yet
`Config::build` succeeds with `ignore_case = false` because the lazy
iterator stops at the file path and never inspects the trailing `-i`. -/
theorem build_ignore_case_disjunction_cex :
    Config.build ["p", "a", "b", "-i"] false
      = .ok { query := "a", file_path := "b", ignore_case := false } ∧
    "-i" ∈ ["p", "a", "b", "-i"] := by
  constructor
  · rfl
  · simp

/-- C5 (amended): for a successfully built `Config`, `ignore_case` is the
disjunction of "`-i` occurs in the consumed prefix of the argument list
(up to and including the third retained argument)" and "the `IGNORE_CASE`
environment variable is present"; a `-i` after that prefix is never
inspected. -/
theorem build_ignore_case_consumed_or_env (args : List String) (env : Bool)
    (c : Config) (h : Config.build args env = .ok c) :
    c.ignore_case = (decide ("-i" ∈ consumedPrefix 3 args) || env) := by
  rcases hf : args.filter notFlag with _ | ⟨x, _ | ⟨q, _ | ⟨f, r⟩⟩⟩
  · rw [build_eq_missing_query args env (by rw [hf]; rfl)] at h
    cases h
  · rw [build_eq_missing_query args env (by rw [hf]; rfl)] at h
    cases h
  · rw [build_eq_missing_file args env x q hf] at h
    cases h
  · rw [build_eq_ok args env x q f r hf] at h
    cases h
    rfl

theorem build_ignore_case_consumed_or_env_witness :
    (Config.mk "x" "y" true).ignore_case
      = (decide ("-i" ∈ consumedPrefix 3 ["m", "-i", "x", "y"]) || true) :=
  build_ignore_case_consumed_or_env ["m", "-i", "x", "y"] true
    (Config.mk "x" "y" true) rfl

/-- C6 counterexample: the empty string is a perfectly acceptable argument;
with arguments `["p", "", "f"]` the build succeeds and the query field is
the empty string, refuting the non-emptiness invariant. -/
theorem build_empty_query_cex :
    Config.build ["p", "", "f"] false
      = .ok { query := "", file_path := "f", ignore_case := false } := rfl

/-- C6 (amended): whenever every argument of the sequence is non-empty and
`Config::build` succeeds, the query and file-path fields are non-empty
(the builder never invents a string: both fields come from the argument
list). -/
theorem build_nonempty_of_nonempty_args (args : List String) (env : Bool)
    (c : Config) (hargs : ∀ a ∈ args, a ≠ "")
    (h : Config.build args env = .ok c) :
    c.query ≠ "" ∧ c.file_path ≠ "" := by
  obtain ⟨hq, hf⟩ := mem_retained_of_build_ok args env c h
  exact ⟨hargs _ (List.mem_filter.mp hq).1, hargs _ (List.mem_filter.mp hf).1⟩

theorem build_nonempty_of_nonempty_args_witness :
    (Config.mk "q" "f" false).query ≠ "" ∧ (Config.mk "q" "f" false).file_path ≠ "" :=
  build_nonempty_of_nonempty_args ["p", "q", "f"] false (Config.mk "q" "f" false)
    (by decide) rfl

/-- C8 counterexample: when the first argument (the program-name slot) is
the literal `-i`, the code filters it as a flag before discarding the
program name, so `ignore_case` becomes true and the positional assignment
shifts: `["-i", "a", "b", "c"]` yields query `"b"` and file path `"c"`,
not query `"a"` and file path `"b"` with `ignore_case = false` as the
claim predicts. -/
theorem build_leading_flag_cex :
    Config.build ["-i", "a", "b", "c"] false
      = .ok { query := "b", file_path := "c", ignore_case := true } ∧
    Config.build ["-i", "a", "b", "c"] false
      ≠ .ok { query := "a", file_path := "b", ignore_case := false } := by
  have h1 : Config.build ["-i", "a", "b", "c"] false
      = .ok { query := "b", file_path := "c", ignore_case := true } := rfl
  refine ⟨h1, ?_⟩
  rw [h1]
  intro h
  injection h with h2
  injection h2 with h3 h4 h5
  exact absurd h3 (by decide)

/-- C8 (amended): the first element is dropped as the program name only
when it is not `-i`: the value of a non-`-i` first argument never affects
the result, while a first element equal to `-i` is consumed as a flag (the
build then behaves as if the flag argument were absent and the environment
variable were set). -/
theorem build_drops_first_nonflag (a b : String) (rest : List String)
    (env : Bool) (ha : a ≠ "-i") (hb : b ≠ "-i") :
    Config.build (a :: rest) env = Config.build (b :: rest) env ∧
    Config.build ("-i" :: rest) env = Config.build rest true := by
  constructor
  · obtain ⟨l, b2, hlb⟩ : ∃ l b2, collect 2 rest = (l, b2) := ⟨_, _, rfl⟩
    have hca : collect 3 (a :: rest) = (a :: l, b2) := by
      simp [collect, ha, hlb]
    have hcb : collect 3 (b :: rest) = (b :: l, b2) := by
      simp [collect, hb, hlb]
    rw [Config.build, Config.build, hca, hcb]
    rcases l with _ | ⟨q, _ | ⟨f, _ | ⟨z, r⟩⟩⟩ <;> rfl
  · obtain ⟨l, b2, hlb⟩ : ∃ l b2, collect 3 rest = (l, b2) := ⟨_, _, rfl⟩
    have hc : collect 3 ("-i" :: rest) = (l, true) := by
      simp [collect, hlb]
    rw [Config.build, Config.build, hc, hlb]
    rcases l with _ | ⟨x, _ | ⟨q, _ | ⟨f, _ | ⟨z, r⟩⟩⟩⟩ <;> simp

theorem build_drops_first_nonflag_witness :
    Config.build ["prog", "q", "f"] false = Config.build ["other", "q", "f"] false ∧
    Config.build ["-i", "q", "f"] false = Config.build ["q", "f"] true :=
  build_drops_first_nonflag "prog" "other" ["q", "f"] false (by decide) (by decide)

/-- C10: a successfully built `Config` never has the literal `-i` as its
query or file path: the filter removes every `-i` before positional
selection, so the flag token cannot be selected as a positional value. -/
theorem build_positional_ne_flag (args : List String) (env : Bool)
    (c : Config) (h : Config.build args env = .ok c) :
    c.query ≠ "-i" ∧ c.file_path ≠ "-i" := by
  obtain ⟨hq, hf⟩ := mem_retained_of_build_ok args env c h
  have h1 := (List.mem_filter.mp hq).2
  have h2 := (List.mem_filter.mp hf).2
  rw [notFlag, bne_iff_ne] at h1 h2
  exact ⟨h1, h2⟩

theorem build_positional_ne_flag_witness :
    (Config.mk "to" "poem.txt" false).query ≠ "-i" ∧
    (Config.mk "to" "poem.txt" false).file_path ≠ "-i" :=
  build_positional_ne_flag ["prog", "to", "poem.txt"] false
    (Config.mk "to" "poem.txt" false) rfl

end Minigrep
